import Mathlib

/-!
# Verification of the dbsnp frequency-plotting notebook core

Shallow embedding of the logical core of
`tutorials/Variation Services/Jupyter_Notebook/plot.ipynb`:

* the paginated `download` loop (Fetcher),
* the per-record `maf` computation (minor allele frequencies),
* the `cross_frequency` aggregator over two populations,
* the `build_pop_map` metadata flattener (Resolver).

Python dictionaries are modelled as association lists with Python's
insertion-order update semantics (`dictInsert` / `dictUpdate`), integers as
`Int`, floats produced by division of integer counts as `ℚ`, raised
exceptions as `Except` errors, and the blocking HTTP layer as an explicit
environment function from (request index, request) to response.
-/

/-! ## Dictionaries (Python `dict` semantics on association lists) -/

/-- Python `d[k] = v`: replace the value of an existing key in place,
otherwise append the new binding at the end (insertion order). -/
def dictInsert {α : Type} (d : List (String × α)) (k : String) (v : α) :
    List (String × α) :=
  if (d.map Prod.fst).contains k then
    d.map (fun p => if p.1 = k then (k, v) else p)
  else
    d ++ [(k, v)]

/-- Python `d.update(new)`: write every binding of `new` into `d` in order. -/
def dictUpdate {α : Type} (d new : List (String × α)) : List (String × α) :=
  new.foldl (fun d p => dictInsert d p.1 p.2) d

/-- The value the last write with key `k` in `ws` carries, if any. -/
def lastWrite {α : Type} (k : String) (ws : List (String × α)) : Option α :=
  (ws.reverse.find? (fun w => w.1 == k)).map Prod.snd

/-! ## Data model

A Variant Record value (one entry of the `results` JSON object): per
contributing project, a mapping from population (biosample id) to an
allele-count mapping (allele symbol → integer count). -/

/-- Allele symbol → count, one population's `allele_counts` entry. -/
abbrev AlleleCounts := List (String × Int)

/-- One project's block: the `{"allele_counts": {...}}` object. -/
structure ProjCounts where
  allele_counts : List (String × AlleleCounts)
  deriving DecidableEq, Repr

/-- One Variant Record value: the `{"counts": {...}}` object. -/
structure Record where
  counts : List (String × ProjCounts)
  deriving DecidableEq, Repr

/-- The accumulated dataset / one page of `results`: key → record. -/
abbrev Dict := List (String × Record)

/-! ## Key parsing

The notebook splits a record key `"<prefix>@<position>"` with `k.split('@')`
and unpacks the result into exactly two parts, parsing the second as an
integer (`int(s)`).  We model the split character-wise (the separator is a
single character) and integer parsing over the character list; a key that
does not split into exactly two parts, or whose suffix is not an integer,
raises in Python and is an error here. -/

/-- Split a character list on every occurrence of `sep`
(Python `str.split` with a one-character separator). -/
def splitOnChar (sep : Char) : List Char → List (List Char)
  | [] => [[]]
  | c :: rest =>
    match splitOnChar sep rest with
    | [] => [[]]
    | part :: parts =>
      if c = sep then [] :: part :: parts
      else (c :: part) :: parts

/-- Value of a decimal digit character, if it is one. -/
def digitVal (c : Char) : Option Nat :=
  if '0' ≤ c ∧ c ≤ '9' then some (c.toNat - '0'.toNat) else none

/-- Parse a nonempty all-digit character list as a natural number. -/
def parseNatChars (cs : List Char) : Option Nat :=
  if cs.isEmpty then none
  else
    cs.foldl
      (fun acc c => acc.bind (fun a => (digitVal c).map (fun d => a * 10 + d)))
      (some 0)

/-- Python `int(s)` on a trimmed decimal string: optional sign, digits. -/
def parseIntChars : List Char → Option Int
  | '-' :: rest => (parseNatChars rest).map (fun n => -(n : Int))
  | cs => (parseNatChars cs).map (fun n => (n : Int))

/-- Python `l, s = k.split('@'); int(s)`: the position encoded in a record key,
`none` when Python would raise (not exactly one `'@'`, or a bad integer). -/
def parsePos (k : String) : Option Int :=
  match splitOnChar '@' k.toList with
  | [_l, s] => parseIntChars s
  | _ => none

/-! ## Fetcher (`download`) -/

/-- One HTTP GET issued by the loop: the interval request
`{seq_id}:{start}:{length}`. -/
structure Request where
  seq_id : String
  start : Int
  length : Int
  deriving DecidableEq, Repr

/-- One HTTP response as the loop observes it: the status code, the raw
body (`resp.content`, used only in the raised exception) and the parsed
`resp.json()["results"]` page. -/
structure Response where
  status_code : Nat
  content : String
  results : Dict
  deriving DecidableEq, Repr

/-- Exceptions `download` can raise. -/
inductive DownloadError where
  /-- `raise Exception("Unable to download data", resp.status_code, resp.content)`. -/
  | http (status_code : Nat) (content : String)
  /-- Python `l, s = k.split('@')` or `int(s)` raised on key `k`. -/
  | badKey (k : String)
  deriving DecidableEq, Repr

/-- The `for k,v in result.items(): l, s = k.split('@'); start = max(start, int(s))`
loop: fold the received keys into `start`, failing on the first bad key. -/
def advanceStart (start : Int) (result : Dict) : Except DownloadError Int :=
  result.foldlM
    (fun s kv =>
      match parsePos kv.1 with
      | some pos => Except.ok (max s pos)
      | none => Except.error (DownloadError.badKey kv.1))
    start

/-- The body of `download`'s `while True:` loop.  The external server is an
environment function from (index of the request, request) to response; `fuel`
bounds the number of iterations we observe, `none` meaning the loop was
still running after `fuel` requests.  On termination it returns the full
request trace together with either the accumulated data (`return data`) or
the raised exception. -/
def downloadLoop (server : Nat → Request → Response) (seq_id : String)
    (stop : Int) :
    Nat → Int → Dict → List Request →
      Option (List Request × Except DownloadError Dict)
  | 0, _, _, _ => none
  | fuel + 1, start, data, reqs =>
    let length := max 1 (stop - start + 1)
    let req : Request := ⟨seq_id, start, length⟩
    let resp := server reqs.length req
    let reqs := reqs ++ [req]
    if resp.status_code / 100 ≠ 2 then
      some (reqs, Except.error (DownloadError.http resp.status_code resp.content))
    else
      let result := resp.results
      let data := dictUpdate data result
      if resp.status_code = 200 then
        some (reqs, Except.ok data)  -- We are done
      else
        match advanceStart start result with
        | Except.ok start' => downloadLoop server seq_id stop fuel start' data reqs
        | Except.error e => some (reqs, Except.error e)

/-- The function `download(seq_id, start, stop)` run against `server` for at most `fuel`
pages. -/
def download (server : Nat → Request → Response) (seq_id : String)
    (start stop : Int) (fuel : Nat) :
    Option (List Request × Except DownloadError Dict) :=
  downloadLoop server seq_id stop fuel start [] []

/-! ## MAF computation (`maf`) -/

/-- The body of `maf`'s inner loop for one population's allele counts `ac`:
take the counts, sort them in descending order; 0 or 1 alleles give MAF 0,
otherwise the second-largest count over the total, with a zero (or
negative) total giving 0. -/
def mafPop (ac : AlleleCounts) : ℚ :=
  let counts := List.insertionSort (fun a b => a ≥ b) (ac.map Prod.snd)
  if counts.length ≤ 1 then 0
  else
    let total := counts.sum
    if 0 < total then ((counts.getD 1 0 : Int) : ℚ) / ((total : Int) : ℚ)
    else 0

/-- The function `maf(record)`: population → MAF, written per (project, population) pair
in iteration order, a later project silently overwriting an earlier value
for the same population. -/
def maf (record : Record) : List (String × ℚ) :=
  record.counts.foldl
    (fun m pc =>
      pc.2.allele_counts.foldl (fun m pa => dictInsert m pa.1 (mafPop pa.2)) m)
    []

/-! ## Cross-frequency aggregator (`cross_frequency`) -/

/-- Errors `cross_frequency` can raise: `counts['allele_counts'][pop_id]`
with an absent population id. -/
inductive CFError where
  | keyError (pop_id : String)
  deriving DecidableEq, Repr

/-- Python `defaultdict(list)` with `d[k].append(v)`: append to the list of
an existing key, otherwise create the key with a one-element list. -/
def ddAppend (d : List (String × List ℚ)) (k : String) (v : ℚ) :
    List (String × List ℚ) :=
  if (d.map Prod.fst).contains k then
    d.map (fun p => if p.1 = k then (p.1, p.2 ++ [v]) else p)
  else
    d ++ [(k, [v])]

/-- Python `_pop_freq(p)`: allele → count/total, or `None` when the total is 0. -/
def pop_freq (p : AlleleCounts) : Option (List (String × ℚ)) :=
  let total := (p.map Prod.snd).sum
  if total = 0 then none  -- This population had no one with any measurements
  else
    some (p.foldl
      (fun r kv => dictInsert r kv.1 (((kv.2 : Int) : ℚ) / ((total : Int) : ℚ)))
      [])

/-- The running state of `cross_frequency`. -/
structure CrossState where
  res_x : List (String × List ℚ)
  res_y : List (String × List ℚ)
  records_missing_pop_data : Nat
  total_records : Nat
  deriving DecidableEq, Repr

/-- Python `for a, fx in pfx.items(): if a in pfy: res_x[a].append(fx);
res_y[a].append(pfy[a])`. -/
def appendPairs (rx ry : List (String × List ℚ))
    (pfx pfy : List (String × ℚ)) :
    List (String × List ℚ) × List (String × List ℚ) :=
  pfx.foldl
    (fun r kv =>
      match List.lookup kv.1 pfy with
      | some fy => (ddAppend r.1 kv.1 kv.2, ddAppend r.2 kv.1 fy)
      | none => r)
    (rx, ry)

/-- The body of `cross_frequency`'s inner loop over one project's counts
block: look both populations up (KeyError propagates), compute both
frequency maps, either skip (counting the block) or append the shared
alleles' frequency pairs. -/
def cf_block (pop_id_x pop_id_y : String) (st : CrossState)
    (pc : String × ProjCounts) : Except CFError CrossState :=
  match List.lookup pop_id_x pc.2.allele_counts with
  | none => Except.error (CFError.keyError pop_id_x)
  | some px =>
    match List.lookup pop_id_y pc.2.allele_counts with
    | none => Except.error (CFError.keyError pop_id_y)
    | some py =>
      match pop_freq px, pop_freq py with
      | some pfx, some pfy =>
        let rr := appendPairs st.res_x st.res_y pfx pfy
        Except.ok { st with res_x := rr.1, res_y := rr.2 }
      | _, _ =>
        Except.ok { st with
          records_missing_pop_data := st.records_missing_pop_data + 1 }

/-- The function `cross_frequency(data, pop_id_x, pop_id_y)`: per-allele aligned
frequency sequences for two populations, plus the skip diagnostics. -/
def cross_frequency (data : Dict) (pop_id_x pop_id_y : String) :
    Except CFError CrossState :=
  data.foldlM
    (fun st kv =>
      ({ st with total_records := st.total_records + 1 } : CrossState)
        |> fun st => kv.2.counts.foldlM (cf_block pop_id_x pop_id_y) st)
    ⟨[], [], 0, 0⟩

/-! ## Population name resolver (`build_pop_map`) -/

/-- One node of the Population Metadata Tree: a biosample id, a display
name, and (when the `"subs"` key is present) a list of sub-populations. -/
inductive Pop where
  | node (biosample_id : String) (nm : String) (subs : Option (List Pop))
  deriving Repr

/-- The node's `pop["biosample_id"]`. -/
def Pop.biosample_id : Pop → String
  | .node b _ _ => b

/-- The node's `pop["name"]`. -/
def Pop.popName : Pop → String
  | .node _ n _ => n

mutual
/-- Python `_read` applied to one `pop`: write its entry, then recurse into
`pop["subs"]` when present. -/
def readPop (res : List (String × String)) : Pop → List (String × String)
  | .node bid nm none => dictInsert res bid nm
  | .node bid nm (some subs) => readPops (dictInsert res bid nm) subs

/-- Python `_read(pops)`: visit every node of the list in order. -/
def readPops (res : List (String × String)) : List Pop → List (String × String)
  | [] => res
  | p :: rest => readPops (readPop res p) rest
end

/-- The function `build_pop_map()` after the metadata fetch succeeded, applied to the
parsed `json()[0]["populations"]` tree (the HTTP layer is external I/O):
the flat biosample id → name map. -/
def build_pop_map (pops : List Pop) : List (String × String) :=
  readPops [] pops

mutual
/-- Every node of a tree, in the depth-first order `_read` visits them. -/
def allNodes : Pop → List Pop
  | .node bid nm none => [.node bid nm none]
  | .node bid nm (some subs) => .node bid nm (some subs) :: allNodesList subs

/-- Every node of a forest, in `_read`'s visit order. -/
def allNodesList : List Pop → List Pop
  | [] => []
  | p :: rest => allNodes p ++ allNodesList rest
end

/-! ## Dictionary lemmas -/

theorem lookup_cons' {α : Type} (k k1 : String) (v1 : α) (rest : List (String × α)) :
    List.lookup k ((k1, v1) :: rest) =
      if k = k1 then some v1 else List.lookup k rest := by
  cases hbe : k == k1
  · have h : ¬ k = k1 := by simpa using hbe
    simp [List.lookup, hbe, h]
  · have h : k = k1 := by simpa using hbe
    simp [List.lookup, hbe, h]

theorem lookup_eq_none_of_not_mem_keys {α : Type} {d : List (String × α)}
    {k : String} (h : k ∉ d.map Prod.fst) : List.lookup k d = none := by
  induction d with
  | nil => rfl
  | cons p rest ih =>
    obtain ⟨k1, v1⟩ := p
    simp only [List.map_cons, List.mem_cons, not_or] at h
    rw [lookup_cons', if_neg h.1]
    exact ih h.2

theorem lookup_append_of_left_none {α : Type} (d l : List (String × α)) (k : String)
    (h : List.lookup k d = none) : List.lookup k (d ++ l) = List.lookup k l := by
  induction d with
  | nil => rfl
  | cons p rest ih =>
    obtain ⟨k1, v1⟩ := p
    rw [lookup_cons'] at h
    by_cases hk : k = k1
    · simp [hk] at h
    · rw [List.cons_append, lookup_cons', if_neg hk]
      rw [if_neg hk] at h
      exact ih h

theorem lookup_map_replace_self {α : Type} (d : List (String × α)) (k : String)
    (v : α) (h : k ∈ d.map Prod.fst) :
    List.lookup k (d.map (fun p => if p.1 = k then (k, v) else p)) = some v := by
  induction d with
  | nil => simp at h
  | cons p rest ih =>
    obtain ⟨k1, v1⟩ := p
    rw [List.map_cons]
    by_cases hp : k1 = k
    · rw [show (if (k1, v1).1 = k then (k, v) else (k1, v1)) = (k, v) from if_pos hp,
        lookup_cons', if_pos rfl]
    · rw [show (if (k1, v1).1 = k then (k, v) else (k1, v1)) = (k1, v1) from if_neg hp,
        lookup_cons', if_neg (fun hk => hp hk.symm)]
      simp only [List.map_cons, List.mem_cons] at h
      rcases h with h | h
      · exact absurd h.symm hp
      · exact ih h

theorem lookup_map_replace_ne {α : Type} (d : List (String × α)) (k k' : String)
    (v : α) (h : k' ≠ k) :
    List.lookup k' (d.map (fun p => if p.1 = k then (k, v) else p)) =
      List.lookup k' d := by
  induction d with
  | nil => rfl
  | cons p rest ih =>
    obtain ⟨k1, v1⟩ := p
    rw [List.map_cons]
    by_cases hp : k1 = k
    · rw [show (if (k1, v1).1 = k then (k, v) else (k1, v1)) = (k, v) from if_pos hp,
        lookup_cons', if_neg h, lookup_cons', if_neg (hp ▸ h), ih]
    · rw [show (if (k1, v1).1 = k then (k, v) else (k1, v1)) = (k1, v1) from if_neg hp,
        lookup_cons', lookup_cons', ih]

theorem lookup_dictInsert_self {α : Type} (d : List (String × α)) (k : String)
    (v : α) : List.lookup k (dictInsert d k v) = some v := by
  unfold dictInsert
  by_cases hc : (d.map Prod.fst).contains k
  · rw [if_pos hc]
    exact lookup_map_replace_self d k v (List.elem_iff.mp hc)
  · rw [if_neg hc]
    replace hc : k ∉ d.map Prod.fst := by simpa using hc
    rw [lookup_append_of_left_none _ _ _ (lookup_eq_none_of_not_mem_keys hc)]
    simp [lookup_cons']

theorem lookup_dictInsert_ne {α : Type} (d : List (String × α)) (k k' : String)
    (v : α) (h : k' ≠ k) :
    List.lookup k' (dictInsert d k v) = List.lookup k' d := by
  unfold dictInsert
  by_cases hc : (d.map Prod.fst).contains k
  · rw [if_pos hc]
    exact lookup_map_replace_ne d k k' v h
  · rw [if_neg hc]
    induction d with
    | nil => simp [lookup_cons', if_neg h]
    | cons p rest ih =>
      obtain ⟨k1, v1⟩ := p
      rw [List.cons_append, lookup_cons', lookup_cons']
      by_cases hk' : k' = k1
      · simp [hk']
      · rw [if_neg hk', if_neg hk']
        refine ih ?_
        intro hx
        exact hc (by
          simp only [List.map_cons, List.contains_cons, hx, Bool.or_true])

/-- One fold step of Python dict writes. -/
def writeStep {α : Type} (d : List (String × α)) (w : String × α) :
    List (String × α) :=
  dictInsert d w.1 w.2

theorem find?_append {β : Type} (p : β → Bool) (l1 l2 : List β) :
    List.find? p (l1 ++ l2) = (List.find? p l1).or (List.find? p l2) := by
  induction l1 with
  | nil => rfl
  | cons x rest ih =>
    rw [List.cons_append, List.find?_cons, List.find?_cons]
    cases p x
    · simp only [ih]
    · rfl

theorem lastWrite_cons {α : Type} (k : String) (w : String × α)
    (ws : List (String × α)) :
    lastWrite k (w :: ws) =
      (lastWrite k ws).or (if w.1 = k then some w.2 else none) := by
  unfold lastWrite
  rw [List.reverse_cons, find?_append]
  by_cases hw : w.1 = k
  · simp only [List.find?_cons, List.find?_nil]
    have hb : (w.1 == k) = true := by simpa using hw
    rw [hb]
    simp only [if_pos hw]
    cases (List.find? (fun x => x.1 == k) ws.reverse) <;> simp
  · simp only [List.find?_cons]
    have : (w.1 == k) = false := by simpa using hw
    rw [this]
    simp only [List.find?_nil, if_neg hw]
    cases (List.find? (fun x => x.1 == k) ws.reverse) <;> simp

theorem lookup_foldl_writeStep {α : Type} (ws : List (String × α))
    (d : List (String × α)) (k : String) :
    List.lookup k (ws.foldl writeStep d) =
      (lastWrite k ws).or (List.lookup k d) := by
  induction ws generalizing d with
  | nil => simp [lastWrite]
  | cons w rest ih =>
    rw [List.foldl_cons, ih, lastWrite_cons]
    by_cases hw : w.1 = k
    · rw [if_pos hw, writeStep, ← hw, lookup_dictInsert_self]
      cases lastWrite w.1 rest <;> rfl
    · rw [if_neg hw, writeStep, lookup_dictInsert_ne _ _ _ _ (fun hk => hw hk.symm)]
      cases lastWrite k rest <;> rfl

theorem keys_dictInsert_contains {α : Type} (d : List (String × α)) (k : String)
    (v : α) (hc : (d.map Prod.fst).contains k = true) :
    (dictInsert d k v).map Prod.fst = d.map Prod.fst := by
  unfold dictInsert
  rw [if_pos hc, List.map_map]
  refine List.map_congr_left ?_
  intro p _
  by_cases hp : p.1 = k
  · simp [hp]
  · simp [hp]

theorem nodup_keys_dictInsert {α : Type} (d : List (String × α)) (k : String)
    (v : α) (h : (d.map Prod.fst).Nodup) :
    ((dictInsert d k v).map Prod.fst).Nodup := by
  by_cases hc : (d.map Prod.fst).contains k
  · rw [keys_dictInsert_contains d k v hc]
    exact h
  · unfold dictInsert
    rw [if_neg hc, List.map_append]
    simp only [List.map_cons, List.map_nil]
    rw [List.nodup_append]
    refine ⟨h, List.nodup_singleton k, ?_⟩
    have hk : k ∉ d.map Prod.fst := by simpa using hc
    intro a ha
    simp only [List.mem_singleton]
    intro hak
    subst hak
    exact hk ha

theorem nodup_keys_foldl_writeStep {α : Type} (ws : List (String × α))
    (d : List (String × α)) (h : (d.map Prod.fst).Nodup) :
    ((ws.foldl writeStep d).map Prod.fst).Nodup := by
  induction ws generalizing d with
  | nil => exact h
  | cons w rest ih => exact ih _ (nodup_keys_dictInsert _ _ _ h)

theorem mem_dictInsert {α : Type} (d : List (String × α)) (k : String) (v : α)
    (x : String × α) (hx : x ∈ dictInsert d k v) : x = (k, v) ∨ x ∈ d := by
  unfold dictInsert at hx
  by_cases hc : (d.map Prod.fst).contains k
  · rw [if_pos hc] at hx
    rcases List.mem_map.mp hx with ⟨y, hy, hxy⟩
    by_cases hyk : y.1 = k
    · left; rw [← hxy, if_pos hyk]
    · right; rw [← hxy, if_neg hyk]; exact hy
  · rw [if_neg hc] at hx
    rcases List.mem_append.mp hx with hx | hx
    · right; exact hx
    · left; simpa using hx

theorem mem_foldl_writeStep {α : Type} (ws : List (String × α))
    (d : List (String × α)) (x : String × α)
    (hx : x ∈ ws.foldl writeStep d) : x ∈ ws ∨ x ∈ d := by
  induction ws generalizing d with
  | nil => right; exact hx
  | cons w rest ih =>
    rcases ih _ hx with h | h
    · left; exact List.mem_cons_of_mem _ h
    · rcases mem_dictInsert _ _ _ _ h with h | h
      · left; rw [h]; exact List.mem_cons_self _ _
      · right; exact h

/-! ## Characterizing `maf` lookups -/

/-- All (population, allele counts) pairs of a record, across projects, in
iteration order. -/
def recPairs (r : Record) : List (String × AlleleCounts) :=
  r.counts.flatMap (fun pc => pc.2.allele_counts)

/-- The (population, MAF) writes `maf` performs, in order. -/
def mafWrites (r : Record) : List (String × ℚ) :=
  (recPairs r).map (fun pa => (pa.1, mafPop pa.2))

/-- The allele-count blocks reported for population `p` in record `r`,
in the order `maf` visits them. -/
def popBlocks (r : Record) (p : String) : List AlleleCounts :=
  (recPairs r).filterMap (fun pa => if pa.1 = p then some pa.2 else none)

theorem inner_foldl_map (ac : List (String × AlleleCounts))
    (m : List (String × ℚ)) :
    ac.foldl (fun m pa => dictInsert m pa.1 (mafPop pa.2)) m =
      (ac.map (fun pa => (pa.1, mafPop pa.2))).foldl writeStep m := by
  rw [List.foldl_map]
  rfl

theorem maf_eq_foldl (r : Record) :
    maf r = (mafWrites r).foldl writeStep [] := by
  unfold maf mafWrites recPairs
  generalize r.counts = l
  generalize hm : ([] : List (String × ℚ)) = m
  clear hm
  induction l generalizing m with
  | nil => rfl
  | cons pc rest ih =>
    rw [List.foldl_cons, List.flatMap_cons, List.map_append, List.foldl_append,
      ← ih, inner_foldl_map]

theorem option_map_or {α β : Type} (f : α → β) (a b : Option α) :
    (a.or b).map f = (a.map f).or (b.map f) := by
  cases a <;> rfl

theorem getLast?_cons_or {α : Type} (x : α) (l : List α) :
    (x :: l).getLast? = l.getLast?.or (some x) := by
  induction l generalizing x with
  | nil => rfl
  | cons y rest ih =>
    rw [List.getLast?_cons_cons, ih y]
    cases rest.getLast? <;> rfl

theorem lastWrite_map_filterMap {β γ : Type} (bs : List (String × β))
    (g : β → γ) (p : String) :
    lastWrite p (bs.map (fun pa => (pa.1, g pa.2))) =
      ((bs.filterMap
          (fun pa => if pa.1 = p then some pa.2 else none)).getLast?).map g := by
  induction bs with
  | nil => rfl
  | cons pa rest ih =>
    rw [List.map_cons, lastWrite_cons, ih, List.filterMap_cons]
    by_cases hp : pa.1 = p
    · rw [if_pos hp, if_pos hp, getLast?_cons_or, option_map_or]
      rfl
    · rw [if_neg hp, if_neg hp]
      cases ((rest.filterMap
        (fun pa => if pa.1 = p then some pa.2 else none)).getLast?).map g <;> rfl

/-- What `maf` assigns to a population: the MAF of the last allele-count
block reported for it across projects (later projects overwrite earlier
ones), and nothing when the record never mentions it. -/
theorem lookup_maf (r : Record) (p : String) :
    List.lookup p (maf r) = ((popBlocks r p).getLast?).map mafPop := by
  rw [maf_eq_foldl, lookup_foldl_writeStep, mafWrites, lastWrite_map_filterMap]
  unfold popBlocks
  cases ((recPairs r).filterMap
    (fun pa => if pa.1 = p then some pa.2 else none)).getLast?.map mafPop <;> rfl

/-! ## The second-largest count

`specSecondLargest` renders the spec's words — "the second-largest count" —
independently of the code's sort: the maximum remaining after removing one
occurrence of the maximum.  We prove the sorted list's second element
equals it. -/

/-- The maximum of a list of integers (0 for the empty list, which we never
use it on). -/
def specMax : List Int → Int
  | [] => 0
  | h :: t => t.foldl max h

/-- The second-largest element: the maximum after removing one occurrence
of the maximum. -/
def specSecondLargest (l : List Int) : Int :=
  specMax (l.erase (specMax l))

theorem le_foldl_max (t : List Int) (b : Int) : b ≤ t.foldl max b := by
  induction t generalizing b with
  | nil => exact le_refl b
  | cons c t ih => exact le_trans (le_max_left b c) (ih (max b c))

theorem mem_le_foldl_max (t : List Int) (b : Int) (x : Int) (hx : x ∈ t) :
    x ≤ t.foldl max b := by
  induction t generalizing b with
  | nil => simp at hx
  | cons c t ih =>
    rcases List.mem_cons.mp hx with h | h
    · subst h
      exact le_trans (le_max_right b x) (le_foldl_max t (max b x))
    · exact ih (max b c) h

theorem foldl_max_mem (t : List Int) (b : Int) : t.foldl max b ∈ b :: t := by
  induction t generalizing b with
  | nil => exact List.mem_singleton.mpr rfl
  | cons c t ih =>
    rw [List.foldl_cons]
    rcases List.mem_cons.mp (ih (max b c)) with h | h
    · rcases max_choice b c with hm | hm
      · rw [h, hm]; exact List.mem_cons_self _ _
      · rw [h, hm]; exact List.mem_cons_of_mem _ (List.mem_cons_self _ _)
    · exact List.mem_cons_of_mem _ (List.mem_cons_of_mem _ h)

theorem specMax_mem {l : List Int} (h : l ≠ []) : specMax l ∈ l := by
  cases l with
  | nil => exact absurd rfl h
  | cons a t => exact foldl_max_mem t a

theorem specMax_le {l : List Int} (x : Int) (hx : x ∈ l) : x ≤ specMax l := by
  cases l with
  | nil => simp at hx
  | cons a t =>
    rcases List.mem_cons.mp hx with h | h
    · exact h ▸ le_foldl_max t a
    · exact mem_le_foldl_max t a x h

theorem specMax_perm {l1 l2 : List Int} (h : l1.Perm l2) :
    specMax l1 = specMax l2 := by
  cases l1 with
  | nil => rw [List.nil_perm.mp h]
  | cons a t =>
    have h2 : l2 ≠ [] := by
      intro hc
      rw [hc] at h
      exact List.cons_ne_nil a t (List.perm_nil.mp h)
    refine le_antisymm ?_ ?_
    · exact specMax_le _ (h.subset (specMax_mem (List.cons_ne_nil a t)))
    · exact specMax_le _ (h.symm.subset (specMax_mem h2))

theorem sorted_desc_head_max {a : Int} {t : List Int}
    (hs : List.Sorted (fun x y : Int => x ≥ y) (a :: t)) :
    specMax (a :: t) = a := by
  refine le_antisymm ?_ (specMax_le a (List.mem_cons_self a t))
  have hmem := specMax_mem (List.cons_ne_nil a t)
  rcases List.mem_cons.mp hmem with h | h
  · exact le_of_eq h
  · exact List.rel_of_sorted_cons hs _ h

theorem specSecondLargest_eq_sorted (l : List Int) (h2 : 2 ≤ l.length) :
    (List.insertionSort (fun a b : Int => a ≥ b) l).getD 1 0 =
      specSecondLargest l := by
  have hperm : (List.insertionSort (fun a b : Int => a ≥ b) l).Perm l :=
    List.perm_insertionSort _ l
  have hs : List.Sorted (fun a b : Int => a ≥ b)
      (List.insertionSort (fun a b : Int => a ≥ b) l) :=
    List.sorted_insertionSort _ l
  have hlen : 2 ≤ (List.insertionSort (fun a b : Int => a ≥ b) l).length := by
    rw [hperm.length_eq]; exact h2
  obtain ⟨a, b, t, hst⟩ :
      ∃ a b t, List.insertionSort (fun a b : Int => a ≥ b) l = a :: b :: t := by
    match hm : List.insertionSort (fun a b : Int => a ≥ b) l with
    | [] => rw [hm] at hlen; simp at hlen
    | [a] => rw [hm] at hlen; simp at hlen
    | a :: b :: t => exact ⟨a, b, t, rfl⟩
  rw [hst] at hperm hs ⊢
  have hmaxl : specMax l = a := by
    rw [← specMax_perm hperm, sorted_desc_head_max hs]
  have herase : (l.erase (specMax l)).Perm (b :: t) := by
    rw [hmaxl]
    have := hperm.erase a
    rw [List.erase_cons_head] at this
    exact this.symm
  unfold specSecondLargest
  rw [specMax_perm herase, sorted_desc_head_max (List.Sorted.of_cons hs)]
  rfl

/-! ## `mafPop` facts -/

theorem mafPop_degenerate (ac : AlleleCounts)
    (h : ac.length ≤ 1 ∨ (ac.map Prod.snd).sum = 0) : mafPop ac = 0 := by
  unfold mafPop
  have hlen : (List.insertionSort (fun a b : Int => a ≥ b) (ac.map Prod.snd)).length
      = ac.length := by
    rw [(List.perm_insertionSort _ _).length_eq, List.length_map]
  have hsum : (List.insertionSort (fun a b : Int => a ≥ b) (ac.map Prod.snd)).sum
      = (ac.map Prod.snd).sum :=
    (List.perm_insertionSort _ _).sum_eq
  rcases h with h | h
  · rw [if_pos (by rw [hlen]; exact h)]
  · by_cases hl : ac.length ≤ 1
    · rw [if_pos (by rw [hlen]; exact hl)]
    · rw [if_neg (by rw [hlen]; exact hl)]
      rw [if_neg (by rw [hsum, h]; exact lt_irrefl 0)]

theorem mafPop_second_largest (ac : AlleleCounts) (h2 : 2 ≤ ac.length)
    (hpos : 0 < (ac.map Prod.snd).sum) :
    mafPop ac =
      ((specSecondLargest (ac.map Prod.snd) : Int) : ℚ) /
        (((ac.map Prod.snd).sum : Int) : ℚ) := by
  unfold mafPop
  have hlen : (List.insertionSort (fun a b : Int => a ≥ b) (ac.map Prod.snd)).length
      = ac.length := by
    rw [(List.perm_insertionSort _ _).length_eq, List.length_map]
  have hsum : (List.insertionSort (fun a b : Int => a ≥ b) (ac.map Prod.snd)).sum
      = (ac.map Prod.snd).sum :=
    (List.perm_insertionSort _ _).sum_eq
  rw [if_neg (by rw [hlen]; omega), if_pos (by rw [hsum]; exact hpos), hsum,
    specSecondLargest_eq_sorted _ (by rw [List.length_map]; exact h2)]

theorem mafPop_nonneg_le_half (ac : AlleleCounts)
    (hnn : ∀ kv ∈ ac, 0 ≤ kv.2) : 0 ≤ mafPop ac ∧ mafPop ac ≤ 1 / 2 := by
  unfold mafPop
  set s := List.insertionSort (fun a b : Int => a ≥ b) (ac.map Prod.snd) with hsdef
  have hperm : s.Perm (ac.map Prod.snd) := List.perm_insertionSort _ _
  have hs : List.Sorted (fun a b : Int => a ≥ b) s := List.sorted_insertionSort _ _
  have hmemnn : ∀ x ∈ s, (0 : Int) ≤ x := by
    intro x hx
    rcases List.mem_map.mp (hperm.subset hx) with ⟨kv, hkv, hxkv⟩
    exact hxkv ▸ hnn kv hkv
  by_cases hl : s.length ≤ 1
  · rw [if_pos hl]
    exact ⟨le_refl 0, by norm_num⟩
  · rw [if_neg hl]
    by_cases ht : 0 < s.sum
    · rw [if_pos ht]
      obtain ⟨a, b, t, hst⟩ : ∃ a b t, s = a :: b :: t := by
        match hm : s with
        | [] => simp at hl
        | [a] => simp at hl
        | a :: b :: t => exact ⟨a, b, t, rfl⟩
      have hb : s.getD 1 0 = b := by rw [hst]; rfl
      have hab : b ≤ a := by
        rw [hst] at hs
        exact List.rel_of_sorted_cons hs _ (List.mem_cons_self b t)
      have hbnn : (0 : Int) ≤ b := by
        refine hmemnn b ?_
        rw [hst]
        exact List.mem_cons_of_mem _ (List.mem_cons_self b t)
      have htsum : (0 : Int) ≤ t.sum := by
        refine List.sum_nonneg ?_
        intro x hx
        refine hmemnn x ?_
        rw [hst]
        exact List.mem_cons_of_mem _ (List.mem_cons_of_mem _ hx)
      have hsumeq : s.sum = a + b + t.sum := by rw [hst]; simp [List.sum_cons]; ring
      have h2b : 2 * b ≤ s.sum := by rw [hsumeq]; linarith
      have htQ : (0 : ℚ) < ((s.sum : Int) : ℚ) := by exact_mod_cast ht
      constructor
      · refine div_nonneg ?_ (le_of_lt htQ)
        rw [hb]
        exact_mod_cast hbnn
      · rw [div_le_iff₀ htQ, hb]
        have : ((2 * b : Int) : ℚ) ≤ ((s.sum : Int) : ℚ) := by exact_mod_cast h2b
        push_cast at this ⊢
        linarith
    · rw [if_neg ht]
      exact ⟨le_refl 0, by norm_num⟩

/-! ## Claims about `maf` -/

/-- C4. For every record and every population within it whose
allele-count mapping (the last block reported for that population, which is
the one `maf` keeps after later projects overwrite earlier ones) has at
least two alleles and a positive total, the value `maf` assigns to that
population equals the second-largest allele count divided by the total of
all that population's counts. -/
theorem claim_C4 (r : Record) (p : String) (ac : AlleleCounts)
    (hlast : (popBlocks r p).getLast? = some ac)
    (h2 : 2 ≤ ac.length) (hpos : 0 < (ac.map Prod.snd).sum) :
    List.lookup p (maf r) =
      some (((specSecondLargest (ac.map Prod.snd) : Int) : ℚ) /
        (((ac.map Prod.snd).sum : Int) : ℚ)) := by
  rw [lookup_maf, hlast, Option.map_some', mafPop_second_largest ac h2 hpos]

/-- The record with allele counts `{A: 7, B: 3}` for population `P1`. -/
def mafExampleRecord : Record :=
  ⟨[("project", ⟨[("P1", [("A", 7), ("B", 3)])]⟩)]⟩

/-- Witness for C4: counts {A: 7, B: 3} yield MAF 3/10 = 0.3. -/
theorem claim_C4_witness :
    List.lookup "P1" (maf mafExampleRecord) = some ((3 : ℚ) / 10) := by
  have h := claim_C4 mafExampleRecord "P1" [("A", 7), ("B", 3)]
    (by decide) (by decide) (by decide)
  rw [h]
  have h2 : specSecondLargest ([("A", (7 : Int)), ("B", 3)].map Prod.snd) = 3 := by
    decide
  rw [h2]
  norm_num

/-- C5. The function `maf` never raises (it is a total function) and never divides
by zero: a population whose (last reported) allele-count mapping has at
most one allele, or whose total count is 0, is assigned MAF exactly 0. -/
theorem claim_C5 (r : Record) (p : String) (ac : AlleleCounts)
    (hlast : (popBlocks r p).getLast? = some ac)
    (hdeg : ac.length ≤ 1 ∨ (ac.map Prod.snd).sum = 0) :
    List.lookup p (maf r) = some 0 := by
  rw [lookup_maf, hlast, Option.map_some', mafPop_degenerate ac hdeg]

/-- A record where population `One` reports a single allele and population
`Zero` reports two alleles with total count 0. -/
def degenerateRecord : Record :=
  ⟨[("project", ⟨[("One", [("A", 5)]), ("Zero", [("A", 0), ("B", 0)])]⟩)]⟩

/-- Witness for C5: a single reported allele gives MAF 0, and a zero total
gives MAF 0. -/
theorem claim_C5_witness :
    List.lookup "One" (maf degenerateRecord) = some 0 ∧
      List.lookup "Zero" (maf degenerateRecord) = some 0 := by
  constructor
  · exact claim_C5 degenerateRecord "One" [("A", 5)] (by decide) (by decide)
  · exact claim_C5 degenerateRecord "Zero" [("A", 0), ("B", 0)]
      (by decide) (by decide)

/-- C9 (implicit). For every record whose allele counts are all
non-negative, every MAF value the code produces lies in [0, 1/2]: with at
least two alleles and a positive total the second-largest count is at most
half the total — strictly tighter than the spec's stated range [0, 1]. -/
theorem claim_C9 (r : Record)
    (hnn : ∀ pc ∈ r.counts, ∀ pa ∈ pc.2.allele_counts, ∀ kv ∈ pa.2, 0 ≤ kv.2)
    (p : String) (q : ℚ) (hq : (p, q) ∈ maf r) :
    0 ≤ q ∧ q ≤ 1 / 2 := by
  rw [maf_eq_foldl] at hq
  rcases mem_foldl_writeStep _ _ _ hq with h | h
  · rcases List.mem_map.mp h with ⟨pa, hpa, hpaq⟩
    have hq1 : mafPop pa.2 = q := congrArg Prod.snd hpaq
    rcases List.mem_flatMap.mp hpa with ⟨pc, hpc, hpapc⟩
    have := mafPop_nonneg_le_half pa.2 (hnn pc hpc pa hpapc)
    rw [hq1] at this
    exact this
  · simp at h

/-- Witness for C9 at the {A: 7, B: 3} record: 0 ≤ 3/10 ≤ 1/2. -/
theorem claim_C9_witness :
    0 ≤ (((3 : Int) : ℚ) / ((10 : Int) : ℚ)) ∧
      (((3 : Int) : ℚ) / ((10 : Int) : ℚ)) ≤ 1 / 2 := by
  refine claim_C9 mafExampleRecord (by decide) "P1"
    (((3 : Int) : ℚ) / ((10 : Int) : ℚ)) ?_
  have hm : maf mafExampleRecord =
      [("P1", ((3 : Int) : ℚ) / ((10 : Int) : ℚ))] := rfl
  rw [hm]
  exact List.mem_singleton.mpr rfl

/-! ## Claims about `download` -/

/-- A server whose first page (the one requested at `start = 0`) has status
204 — a 2xx status that is neither 200 nor 206. -/
def status204Server : Nat → Request → Response := fun _ req =>
  if req.start = 0 then ⟨204, "", [("x@5", mafExampleRecord)]⟩
  else ⟨200, "", []⟩

/-- C1 counterexample. A 204 response — an HTTP status other than 200
and 206 — is *not* a fatal failure: `download` merges its records, issues a
further pagination request and returns normally. -/
theorem claim_C1_counterexample :
    download status204Server "NC" 0 10 5 =
      some ([⟨"NC", 0, 11⟩, ⟨"NC", 5, 6⟩],
        Except.ok [("x@5", mafExampleRecord)]) ∧
      (204 : Nat) ≠ 200 ∧ (204 : Nat) ≠ 206 := by
  exact ⟨rfl, by decide, by decide⟩

/-- C1 (amended). Any response whose status code is not 2xx
(`status // 100 != 2`) is a fatal failure: `download` aborts immediately,
surfacing the status code and response body, and issues no further
pagination request; 2xx statuses other than 200 (like 204) are treated as
partial, exactly like 206. -/
theorem claim_C1 (server : Nat → Request → Response) (seq_id : String)
    (stop : Int) (fuel : Nat) (start : Int) (data : Dict) (reqs : List Request)
    (hfuel : 0 < fuel)
    (hbad : (server reqs.length
        ⟨seq_id, start, max 1 (stop - start + 1)⟩).status_code / 100 ≠ 2) :
    downloadLoop server seq_id stop fuel start data reqs =
      some (reqs ++ [⟨seq_id, start, max 1 (stop - start + 1)⟩],
        Except.error (DownloadError.http
          (server reqs.length
            ⟨seq_id, start, max 1 (stop - start + 1)⟩).status_code
          (server reqs.length
            ⟨seq_id, start, max 1 (stop - start + 1)⟩).content)) := by
  cases fuel with
  | zero => omega
  | succ f =>
    simp only [downloadLoop]
    rw [if_pos hbad]

/-- A server that always fails with status 500 and body `"oops"`. -/
def status500Server : Nat → Request → Response := fun _ _ => ⟨500, "oops", []⟩

/-- Witness for C1 (amended): a 500 response aborts after exactly one
request, carrying the status and body. -/
theorem claim_C1_witness :
    downloadLoop status500Server "NC" 10 3 0 [] [] =
      some ([⟨"NC", 0, 11⟩], Except.error (DownloadError.http 500 "oops")) := by
  have h := claim_C1 status500Server "NC" 10 3 0 [] [] (by decide) (by decide)
  exact h

/-- C10 (implicit). A partial (206) response with an empty results page
leaves `start` unchanged, so the next request is identical; a server that
keeps answering that request with an empty 206 page makes the loop repeat
the identical request forever — `downloadLoop` never terminates, whatever
the fuel. -/
theorem claim_C10 (server : Nat → Request → Response) (seq_id : String)
    (stop : Int) (start : Int)
    (hresp : ∀ i,
      (server i ⟨seq_id, start, max 1 (stop - start + 1)⟩).status_code = 206 ∧
      (server i ⟨seq_id, start, max 1 (stop - start + 1)⟩).results = []) :
    ∀ (fuel : Nat) (data : Dict) (reqs : List Request),
      downloadLoop server seq_id stop fuel start data reqs = none := by
  intro fuel
  induction fuel with
  | zero => intro data reqs; rfl
  | succ f ih =>
    intro data reqs
    have h1 := (hresp reqs.length).1
    have h2 := (hresp reqs.length).2
    simp only [downloadLoop]
    rw [if_neg (by rw [h1]; decide), h2]
    rw [if_neg (by rw [h1]; decide)]
    show (match advanceStart start [] with
      | Except.ok start' =>
        downloadLoop server seq_id stop f start' (dictUpdate data [])
          (reqs ++ [⟨seq_id, start, max 1 (stop - start + 1)⟩])
      | Except.error e =>
        some (reqs ++ [⟨seq_id, start, max 1 (stop - start + 1)⟩],
          Except.error e)) = none
    exact ih (dictUpdate data []) _

/-- A server that always answers 206 with an empty results page. -/
def empty206Server : Nat → Request → Response := fun _ _ => ⟨206, "", []⟩

/-- Witness for C10: against the always-empty-206 server the loop is still
running after 3 pages (and, by the theorem, after any number of pages). -/
theorem claim_C10_witness :
    downloadLoop empty206Server "NC" 10 3 0 [] [] = none :=
  claim_C10 empty206Server "NC" 10 0 (fun _ => ⟨rfl, rfl⟩) 3 [] []

/-- A server whose first page is partial (206) and contains a single record
whose position, 50, lies *below* the requested start 100; every later page
is final (200) and empty. -/
def backwardServer : Nat → Request → Response := fun i _ =>
  if i = 0 then ⟨206, "", [("a@50", mafExampleRecord)]⟩
  else ⟨200, "", []⟩

/-- C3 counterexample. After the partial response whose only key parses
to position 50, the next request is issued with `start = 100` (the old
value), not 50: `start = max(start, int(s))` keeps the previous start when
all received positions lie below it, refuting "sets start to the maximum
position found among the just-received records' keys". -/
theorem claim_C3_counterexample :
    download backwardServer "NC" 100 200 5 =
      some ([⟨"NC", 100, 101⟩, ⟨"NC", 100, 101⟩],
        Except.ok [("a@50", mafExampleRecord)]) ∧
      parsePos "a@50" = some 50 ∧ (100 : Int) ≠ 50 :=
  ⟨rfl, rfl, by decide⟩

theorem advanceStart_cons (start : Int) (kv : String × Record) (rest : Dict) :
    advanceStart start (kv :: rest) =
      match parsePos kv.1 with
      | some pos => advanceStart (max start pos) rest
      | none => Except.error (DownloadError.badKey kv.1) := by
  cases hp : parsePos kv.1 <;>
    simp only [advanceStart, List.foldlM_cons, hp] <;> rfl

theorem advanceStart_ok (start : Int) (result : Dict)
    (hkeys : ∀ kv ∈ result, (parsePos kv.1).isSome) :
    advanceStart start result =
      Except.ok ((result.filterMap (fun kv => parsePos kv.1)).foldl max start) := by
  induction result generalizing start with
  | nil => rfl
  | cons kv rest ih =>
    obtain ⟨pos, hpos⟩ := Option.isSome_iff_exists.mp
      (hkeys kv (List.mem_cons_self kv rest))
    rw [advanceStart_cons, hpos, List.filterMap_cons, hpos, List.foldl_cons]
    exact ih (max start pos) (fun kv h => hkeys kv (List.mem_cons_of_mem _ h))

theorem foldl_max_swap (t : List Int) (b x : Int) :
    t.foldl max (max b x) = max b (t.foldl max x) := by
  induction t generalizing x with
  | nil => rfl
  | cons y t ih =>
    rw [List.foldl_cons, List.foldl_cons, max_assoc, ih (max x y)]

theorem foldl_max_eq_max_specMax (l : List Int) (b : Int) (h : l ≠ []) :
    l.foldl max b = max b (specMax l) := by
  cases l with
  | nil => exact absurd rfl h
  | cons x t =>
    rw [List.foldl_cons, foldl_max_swap]
    rfl

/-- C3 (amended). After a partial (206) response with a non-empty
results page whose keys all parse, the loop continues — and the next
request, when one is issued, is made — with `start` equal to the maximum
of the *previous* `start` and the maximum position found among the
just-received records' keys (`start = max(start, int(s))` per key), not
the received maximum alone. -/
theorem claim_C3 (server : Nat → Request → Response) (seq_id : String)
    (stop : Int) (fuel : Nat) (start : Int) (data : Dict) (reqs : List Request)
    (hfuel : 0 < fuel)
    (hst : (server reqs.length
      ⟨seq_id, start, max 1 (stop - start + 1)⟩).status_code = 206)
    (hkeys : ∀ kv ∈ (server reqs.length
        ⟨seq_id, start, max 1 (stop - start + 1)⟩).results,
      (parsePos kv.1).isSome)
    (hne : (server reqs.length
      ⟨seq_id, start, max 1 (stop - start + 1)⟩).results ≠ []) :
    downloadLoop server seq_id stop fuel start data reqs =
      downloadLoop server seq_id stop (fuel - 1)
        (max start (specMax ((server reqs.length
            ⟨seq_id, start, max 1 (stop - start + 1)⟩).results.filterMap
          (fun kv => parsePos kv.1))))
        (dictUpdate data (server reqs.length
          ⟨seq_id, start, max 1 (stop - start + 1)⟩).results)
        (reqs ++ [⟨seq_id, start, max 1 (stop - start + 1)⟩]) := by
  cases fuel with
  | zero => omega
  | succ f =>
    simp only [downloadLoop]
    rw [if_neg (by rw [hst]; decide), if_neg (by rw [hst]; decide)]
    rw [advanceStart_ok _ _ hkeys]
    have hfl : ((server reqs.length
        ⟨seq_id, start, max 1 (stop - start + 1)⟩).results.filterMap
          (fun kv => parsePos kv.1)) ≠ [] := by
      cases hr : (server reqs.length
          ⟨seq_id, start, max 1 (stop - start + 1)⟩).results with
      | nil => exact absurd hr hne
      | cons kv rest =>
        obtain ⟨pos, hpos⟩ := Option.isSome_iff_exists.mp
          (hkeys kv (hr ▸ List.mem_cons_self kv rest))
        rw [List.filterMap_cons, hpos]
        exact List.cons_ne_nil pos _
    rw [foldl_max_eq_max_specMax _ _ hfl]
    simp [Nat.succ_sub_one]

/-- Witness for C3 (amended): with previous start 100 and received key
`"a@50"`, the loop continues with start `max 100 50 = 100`. -/
theorem claim_C3_witness :
    downloadLoop backwardServer "NC" 200 5 100 [] [] =
      downloadLoop backwardServer "NC" 200 4 100
        [("a@50", mafExampleRecord)] [⟨"NC", 100, 101⟩] :=
  claim_C3 backwardServer "NC" 200 5 100 [] [] (by decide) rfl
    (by decide) (by decide)

/-- The results pages a request trace receives, when request `j` of the
trace is the `(base + j)`-th request overall. -/
def pagesOf (server : Nat → Request → Response) :
    Nat → List Request → List Dict
  | _, [] => []
  | base, r :: rs => (server base r).results :: pagesOf server (base + 1) rs

/-- Running the loop over `n` partial pages followed by a final page:
exactly one request per page, and the data is the pages folded into the
accumulator with dict-update semantics. -/
theorem downloadLoop_run (server : Nat → Request → Response) (seq_id : String)
    (stop : Int) (n : Nat) :
    ∀ (fuel : Nat), n + 1 ≤ fuel →
    ∀ (start : Int) (data : Dict) (reqs0 : List Request),
    (∀ i req, reqs0.length ≤ i → i < reqs0.length + n →
      (server i req).status_code = 206) →
    (∀ req, (server (reqs0.length + n) req).status_code = 200) →
    (∀ i req, reqs0.length ≤ i → i < reqs0.length + n →
      ∀ kv ∈ (server i req).results, (parsePos kv.1).isSome) →
    ∃ reqs' d,
      downloadLoop server seq_id stop fuel start data reqs0 =
        some (reqs0 ++ reqs', Except.ok d) ∧
      reqs'.length = n + 1 ∧
      d = (pagesOf server reqs0.length reqs').foldl dictUpdate data := by
  induction n with
  | zero =>
    intro fuel hfuel start data reqs0 _h206 h200 _hkeys
    cases fuel with
    | zero => omega
    | succ f =>
      have hst := h200 ⟨seq_id, start, max 1 (stop - start + 1)⟩
      rw [Nat.add_zero] at hst
      refine ⟨[⟨seq_id, start, max 1 (stop - start + 1)⟩], _, ?_, rfl, rfl⟩
      simp only [downloadLoop]
      rw [if_neg (by rw [hst]; decide), if_pos hst]
      rfl
  | succ n ih =>
    intro fuel hfuel start data reqs0 h206 h200 hkeys
    cases fuel with
    | zero => omega
    | succ f =>
      have hst := h206 reqs0.length ⟨seq_id, start, max 1 (stop - start + 1)⟩
        (le_refl _) (by omega)
      have hk := hkeys reqs0.length ⟨seq_id, start, max 1 (stop - start + 1)⟩
        (le_refl _) (by omega)
      obtain ⟨reqs'', d, heq, hlen, hd⟩ :=
        ih f (by omega)
          ((( (server reqs0.length
              ⟨seq_id, start, max 1 (stop - start + 1)⟩).results.filterMap
            (fun kv => parsePos kv.1))).foldl max start)
          (dictUpdate data (server reqs0.length
            ⟨seq_id, start, max 1 (stop - start + 1)⟩).results)
          (reqs0 ++ [⟨seq_id, start, max 1 (stop - start + 1)⟩])
          (by
            intro i req hi1 hi2
            rw [List.length_append, List.length_cons, List.length_nil] at hi1 hi2
            exact h206 i req (by omega) (by omega))
          (by
            intro req
            rw [List.length_append, List.length_cons, List.length_nil]
            have := h200 req
            rw [show reqs0.length + 0 + 1 + n = reqs0.length + (n + 1) by omega]
            exact this)
          (by
            intro i req hi1 hi2
            rw [List.length_append, List.length_cons, List.length_nil] at hi1 hi2
            exact hkeys i req (by omega) (by omega))
      refine ⟨⟨seq_id, start, max 1 (stop - start + 1)⟩ :: reqs'', d, ?_, ?_, ?_⟩
      · simp only [downloadLoop]
        rw [if_neg (by rw [hst]; decide), if_neg (by rw [hst]; decide)]
        rw [advanceStart_ok _ _ hk]
        refine Eq.trans ?_ (b := some ((reqs0 ++
          [⟨seq_id, start, max 1 (stop - start + 1)⟩]) ++ reqs'', Except.ok d)) ?_
        · exact heq
        · rw [List.append_assoc]
          rfl
      · rw [List.length_cons, hlen]
      · rw [hd]
        have hlen1 : (reqs0 ++
            ([⟨seq_id, start, max 1 (stop - start + 1)⟩] : List Request)).length =
            reqs0.length + 1 := by
          rw [List.length_append, List.length_cons, List.length_nil]
        rw [hlen1]
        rfl

theorem foldl_dictUpdate_eq_flatten (pages : List Dict) (data : Dict) :
    pages.foldl dictUpdate data = pages.flatten.foldl writeStep data := by
  induction pages generalizing data with
  | nil => rfl
  | cons p ps ih =>
    rw [List.foldl_cons, List.flatten_cons, List.foldl_append, ih]
    rfl

/-- C2. When the first `n` responses are partial (206, with parseable
keys) and the `(n+1)`-st is complete (200), `download` makes exactly one
request per page — `n + 1` requests in all — and returns the union of all
pages' records: looking up any key yields the value of the *last* page
that wrote it (later identical keys overwrite earlier ones), and the
result carries no duplicate keys. -/
theorem claim_C2 (server : Nat → Request → Response) (seq_id : String)
    (start stop : Int) (n fuel : Nat) (hfuel : n + 1 ≤ fuel)
    (h206 : ∀ i req, i < n → (server i req).status_code = 206)
    (h200 : ∀ req, (server n req).status_code = 200)
    (hkeys : ∀ i req, i < n →
      ∀ kv ∈ (server i req).results, (parsePos kv.1).isSome) :
    ∃ reqs d,
      download server seq_id start stop fuel = some (reqs, Except.ok d) ∧
      reqs.length = n + 1 ∧
      (∀ k, List.lookup k d = lastWrite k (pagesOf server 0 reqs).flatten) ∧
      (d.map Prod.fst).Nodup := by
  obtain ⟨reqs', d, heq, hlen, hd⟩ :=
    downloadLoop_run server seq_id stop n fuel hfuel start [] []
      (fun i req hi1 hi2 => h206 i req (by simpa using hi2))
      (fun req => by simpa using h200 req)
      (fun i req hi1 hi2 => hkeys i req (by simpa using hi2))
  refine ⟨reqs', d, by simpa [download] using heq, hlen, ?_, ?_⟩
  · intro k
    rw [hd]
    have h0 : ([] : List Request).length = 0 := rfl
    rw [show pagesOf server ([] : List Request).length reqs'
        = pagesOf server 0 reqs' from rfl] at hd ⊢
    rw [foldl_dictUpdate_eq_flatten, lookup_foldl_writeStep]
    cases lastWrite k (pagesOf server 0 reqs').flatten <;> rfl
  · rw [hd, foldl_dictUpdate_eq_flatten]
    exact nodup_keys_foldl_writeStep _ _ (by simp)

/-- Three synthetic pages: two partial (206) pages with advancing
positions, then a final (200) page. -/
def threePageServer : Nat → Request → Response := fun i _ =>
  if i = 0 then ⟨206, "", [("a@5", mafExampleRecord)]⟩
  else if i = 1 then ⟨206, "", [("b@9", degenerateRecord)]⟩
  else ⟨200, "", [("c@12", mafExampleRecord)]⟩

/-- Witness for C2: two 206 pages followed by a 200 page give exactly 3
requests, last-write-wins lookups over the three pages, and no duplicate
keys. -/
theorem claim_C2_witness :
    ∃ reqs d,
      download threePageServer "NC" 0 20 3 = some (reqs, Except.ok d) ∧
      reqs.length = 2 + 1 ∧
      (∀ k, List.lookup k d =
        lastWrite k (pagesOf threePageServer 0 reqs).flatten) ∧
      (d.map Prod.fst).Nodup := by
  refine claim_C2 threePageServer "NC" 0 20 2 3 (by decide) ?_ ?_ ?_
  · intro i req hi
    interval_cases i <;> rfl
  · intro req
    rfl
  · intro i req hi kv hkv
    interval_cases i <;> simp [threePageServer] at hkv <;> subst hkv <;> decide

/-! ## Claims about `cross_frequency` -/

/-- The C6 scenario: one record where both populations X and Y have
nonzero totals for allele "A" (frequencies 0.4 and 0.6) and one record
where population Y has total 0. -/
def crossExampleData : Dict :=
  [("k1@1", ⟨[("pr", ⟨[("X", [("A", 2), ("B", 3)]),
                       ("Y", [("A", 3), ("B", 2)])]⟩)]⟩),
   ("k2@2", ⟨[("pr", ⟨[("X", [("A", 1)]),
                       ("Y", [("A", 0)])]⟩)]⟩)]

/-- C6. A project-block where either requested population has total
allele count 0 contributes no frequency pairs and bumps the skip counter by
exactly one; on the two-record example the skip counter is 1 and allele
"A"'s sequences hold exactly the single pair (2/5, 3/5) = (0.4, 0.6). -/
theorem claim_C6 :
    (∀ (pop_id_x pop_id_y : String) (st : CrossState)
        (pc : String × ProjCounts) (px py : AlleleCounts),
      List.lookup pop_id_x pc.2.allele_counts = some px →
      List.lookup pop_id_y pc.2.allele_counts = some py →
      ((px.map Prod.snd).sum = 0 ∨ (py.map Prod.snd).sum = 0) →
      cf_block pop_id_x pop_id_y st pc =
        Except.ok { st with
          records_missing_pop_data := st.records_missing_pop_data + 1 }) ∧
    (∃ res : CrossState,
      cross_frequency crossExampleData "X" "Y" = Except.ok res ∧
      List.lookup "A" res.res_x = some [((2 : Int) : ℚ) / ((5 : Int) : ℚ)] ∧
      List.lookup "A" res.res_y = some [((3 : Int) : ℚ) / ((5 : Int) : ℚ)] ∧
      res.records_missing_pop_data = 1) := by
  constructor
  · intro pop_id_x pop_id_y st pc px py hpx hpy hdeg
    unfold cf_block
    rw [hpx, hpy]

    rcases hdeg with h | h
    · have hfx : pop_freq px = none := by unfold pop_freq; rw [if_pos h]
      cases hfy : pop_freq py <;> simp [hfx, hfy]
    · have hfy : pop_freq py = none := by unfold pop_freq; rw [if_pos h]
      cases hfx : pop_freq px <;> simp [hfx, hfy]
  · exact ⟨_, rfl, rfl, rfl, rfl⟩

/-- Witness for C6: the degenerate block of the example (population Y has
total 0) only bumps the skip counter. -/
theorem claim_C6_witness :
    cf_block "X" "Y" ⟨[], [], 0, 0⟩
        ("pr", ⟨[("X", [("A", 1)]), ("Y", [("A", 0)])]⟩) =
      Except.ok ⟨[], [], 1, 0⟩ :=
  claim_C6.1 "X" "Y" ⟨[], [], 0, 0⟩ _ [("A", 1)] [("A", 0)] rfl rfl
    (Or.inr (by decide))

theorem cf_block_error (pop_id_x pop_id_y : String) (st : CrossState)
    (pc : String × ProjCounts)
    (h : List.lookup pop_id_x pc.2.allele_counts = none ∨
      List.lookup pop_id_y pc.2.allele_counts = none) :
    ∃ e, cf_block pop_id_x pop_id_y st pc = Except.error e := by
  unfold cf_block
  cases hx : List.lookup pop_id_x pc.2.allele_counts with
  | none => exact ⟨CFError.keyError pop_id_x, rfl⟩
  | some px =>
    rcases h with h | h
    · rw [h] at hx; cases hx
    · rw [h]
      exact ⟨CFError.keyError pop_id_y, rfl⟩

theorem foldlM_error_of_exists {σ α : Type}
    (f : σ → α → Except CFError σ) (l : List α) (x : α) (hx : x ∈ l)
    (hfail : ∀ s, ∃ e, f s x = Except.error e) :
    ∀ s, ∃ e, l.foldlM f s = Except.error e := by
  induction l with
  | nil => simp at hx
  | cons a rest ih =>
    intro s
    rcases List.mem_cons.mp hx with hxa | hxr
    · subst hxa
      obtain ⟨e, he⟩ := hfail s
      refine ⟨e, ?_⟩
      rw [List.foldlM_cons, he]
      rfl
    · cases ha : f s a with
      | error e =>
        refine ⟨e, ?_⟩
        rw [List.foldlM_cons, ha]
        rfl
      | ok s1 =>
        obtain ⟨e, he⟩ := ih hxr s1
        refine ⟨e, ?_⟩
        rw [List.foldlM_cons, ha]
        exact he

/-- C7. `cross_frequency` fails with an uncaught lookup error —
propagating to the caller — whenever either requested population id is
absent from the allele-count mapping of some project-block of some record
in the dataset. -/
theorem claim_C7 (data : Dict) (pop_id_x pop_id_y : String)
    (hmiss : ∃ kv ∈ data, ∃ pc ∈ kv.2.counts,
      List.lookup pop_id_x pc.2.allele_counts = none ∨
      List.lookup pop_id_y pc.2.allele_counts = none) :
    ∃ pid, cross_frequency data pop_id_x pop_id_y =
      Except.error (CFError.keyError pid) := by
  obtain ⟨kv, hkv, pc, hpc, hm⟩ := hmiss
  have hrec : ∀ st : CrossState, ∃ e,
      (fun st (kv : String × Record) =>
        ({ st with total_records := st.total_records + 1 } : CrossState)
          |> fun st => kv.2.counts.foldlM (cf_block pop_id_x pop_id_y) st)
        st kv = Except.error e := by
    intro st
    exact foldlM_error_of_exists _ _ pc hpc
      (fun s => cf_block_error pop_id_x pop_id_y s pc hm) _
  obtain ⟨e, he⟩ :=
    foldlM_error_of_exists
      (fun st (kv : String × Record) =>
        ({ st with total_records := st.total_records + 1 } : CrossState)
          |> fun st => kv.2.counts.foldlM (cf_block pop_id_x pop_id_y) st)
      data kv hkv hrec (⟨[], [], 0, 0⟩ : CrossState)
  cases e with
  | keyError pid => exact ⟨pid, he⟩

/-- A dataset whose single record's single block lacks population `Y`. -/
def missingPopData : Dict :=
  [("k@1", ⟨[("pr", ⟨[("X", [("A", 1)])]⟩)]⟩)]

/-- Witness for C7: requesting the absent population `Y` makes
`cross_frequency` fail with a lookup error. -/
theorem claim_C7_witness :
    ∃ pid, cross_frequency missingPopData "X" "Y" =
      Except.error (CFError.keyError pid) :=
  claim_C7 missingPopData "X" "Y"
    ⟨("k@1", ⟨[("pr", ⟨[("X", [("A", 1)])]⟩)]⟩),
      List.mem_singleton.mpr rfl,
      ("pr", ⟨[("X", [("A", 1)])]⟩),
      List.mem_singleton.mpr rfl,
      Or.inr rfl⟩

/-! ## Claims about `build_pop_map` -/

mutual
/-- The (biosample id, name) writes `_read` performs on one node, in
visit order. -/
def popWrites : Pop → List (String × String)
  | .node bid nm none => [(bid, nm)]
  | .node bid nm (some subs) => (bid, nm) :: popsWrites subs

/-- The writes `_read` performs on a forest, in visit order. -/
def popsWrites : List Pop → List (String × String)
  | [] => []
  | p :: rest => popWrites p ++ popsWrites rest
end

mutual
theorem readPop_eq (res : List (String × String)) (p : Pop) :
    readPop res p = (popWrites p).foldl writeStep res := by
  match p with
  | .node bid nm none => rfl
  | .node bid nm (some subs) =>
    rw [readPop, popWrites, List.foldl_cons]
    exact readPops_eq _ subs

theorem readPops_eq (res : List (String × String)) (ps : List Pop) :
    readPops res ps = (popsWrites ps).foldl writeStep res := by
  match ps with
  | [] => rfl
  | p :: rest =>
    rw [readPops, popsWrites, List.foldl_append, ← readPop_eq res p]
    exact readPops_eq _ rest
end

mutual
theorem mem_popWrites (p q : Pop) (h : q ∈ allNodes p) :
    (q.biosample_id, q.popName) ∈ popWrites p := by
  match p with
  | .node bid nm none =>
    rw [allNodes] at h
    rw [List.mem_singleton.mp h]
    exact List.mem_singleton.mpr rfl
  | .node bid nm (some subs) =>
    rw [allNodes] at h
    rcases List.mem_cons.mp h with h | h
    · rw [h]
      exact List.mem_cons_self _ _
    · exact List.mem_cons_of_mem _ (mem_popsWrites subs q h)

theorem mem_popsWrites (ps : List Pop) (q : Pop) (h : q ∈ allNodesList ps) :
    (q.biosample_id, q.popName) ∈ popsWrites ps := by
  match ps with
  | [] => rw [allNodesList] at h; cases h
  | p :: rest =>
    rw [allNodesList] at h
    rw [popsWrites]
    rcases List.mem_append.mp h with h | h
    · exact List.mem_append_left _ (mem_popWrites p q h)
    · exact List.mem_append_right _ (mem_popsWrites rest q h)
end

theorem lastWrite_isSome_of_mem {α : Type} (ws : List (String × α))
    (k : String) (v : α) (h : (k, v) ∈ ws) : (lastWrite k ws).isSome := by
  induction ws with
  | nil => cases h
  | cons w rest ih =>
    rw [lastWrite_cons]
    rcases List.mem_cons.mp h with h | h
    · rw [← h]
      cases lastWrite k rest <;> simp
    · have := ih h
      cases hl : lastWrite k rest
      · rw [hl] at this; cases this
      · simp

theorem lastWrite_mem {α : Type} (ws : List (String × α)) (k : String)
    (v : α) (h : lastWrite k ws = some v) :
    ∃ w ∈ ws, w.1 = k ∧ w.2 = v := by
  unfold lastWrite at h
  cases hf : ws.reverse.find? (fun w => w.1 == k) with
  | none => rw [hf] at h; cases h
  | some w =>
    rw [hf] at h
    have hw : w ∈ ws.reverse := List.mem_of_find?_eq_some hf
    have hp : w.1 = k := by
      have hb := List.find?_some hf
      simpa using hb
    exact ⟨w, List.mem_reverse.mp hw, hp, by simpa using h⟩

/-- C8. For every node of an acyclic metadata tree, at any depth, the
flat map built by `build_pop_map` has an entry for that node's biosample
id; the entry holds the name written by the *last* node visited with that
id in depth-first order (later-visited overwrites earlier on collision),
so when all nodes carrying that id agree on the name — in particular when
biosample ids are unique — the entry maps the node's id to its display
name. -/
theorem claim_C8 (ps : List Pop) (q : Pop) (hq : q ∈ allNodesList ps) :
    (∃ nm, List.lookup q.biosample_id (build_pop_map ps) = some nm) ∧
    List.lookup q.biosample_id (build_pop_map ps) =
      lastWrite q.biosample_id (popsWrites ps) ∧
    ((∀ w ∈ popsWrites ps, w.1 = q.biosample_id → w.2 = q.popName) →
      List.lookup q.biosample_id (build_pop_map ps) = some q.popName) := by
  have heq : List.lookup q.biosample_id (build_pop_map ps) =
      lastWrite q.biosample_id (popsWrites ps) := by
    unfold build_pop_map
    rw [readPops_eq, lookup_foldl_writeStep]
    cases lastWrite q.biosample_id (popsWrites ps) <;> rfl
  have hsome : ∃ nm, List.lookup q.biosample_id (build_pop_map ps) = some nm := by
    rw [heq]
    exact Option.isSome_iff_exists.mp
      (lastWrite_isSome_of_mem _ _ _ (mem_popsWrites ps q hq))
  refine ⟨hsome, heq, ?_⟩
  intro huniq
  obtain ⟨nm, hnm⟩ := hsome
  obtain ⟨w, hwmem, hwk, hwv⟩ := lastWrite_mem _ _ _ (heq ▸ hnm)
  rw [hnm, ← hwv, huniq w hwmem hwk]

/-- A root population with two nested sub-populations. -/
def metaTree : List Pop :=
  [.node "r" "Root" (some [.node "s" "Sub" (some [.node "t" "SubSub" none])])]

/-- Witness for C8: all three biosample-id → name entries are present. -/
theorem claim_C8_witness :
    List.lookup "r" (build_pop_map metaTree) = some "Root" ∧
    List.lookup "s" (build_pop_map metaTree) = some "Sub" ∧
    List.lookup "t" (build_pop_map metaTree) = some "SubSub" := by
  have hall : allNodesList metaTree =
      [.node "r" "Root" (some [.node "s" "Sub" (some [.node "t" "SubSub" none])]),
       .node "s" "Sub" (some [.node "t" "SubSub" none]),
       .node "t" "SubSub" none] := rfl
  refine ⟨(claim_C8 metaTree (.node "r" "Root"
      (some [.node "s" "Sub" (some [.node "t" "SubSub" none])])) ?_).2.2 ?_,
    (claim_C8 metaTree (.node "s" "Sub"
      (some [.node "t" "SubSub" none])) ?_).2.2 ?_,
    (claim_C8 metaTree (.node "t" "SubSub" none) ?_).2.2 ?_⟩
  · rw [hall]; exact List.mem_cons_self _ _
  · decide
  · rw [hall]; exact List.mem_cons_of_mem _ (List.mem_cons_self _ _)
  · decide
  · rw [hall]
    exact List.mem_cons_of_mem _ (List.mem_cons_of_mem _ (List.mem_cons_self _ _))
  · decide
